import Mathlib

/-!
Verification of the range-selector normalization subsystem of an
ordered key-value store abstraction layer (`src/index.js`,
`AbstractStoreLayer`).  The store is configured with the default
encodings (`keyEncoding = 'bytewise'`, `valueEncoding = 'json'`);
all operations modelled here are the bytewise-scheme paths (under any
other configured key encoding every one of these operations throws
`Unimplemented encoding` before doing anything, so the default scheme
is the only interesting case).

JavaScript strings are modelled as lists of UTF-16 code units
(natural numbers), JavaScript numbers as rationals (the source only
ever does exact decimal arithmetic `± 0.000001` on them), and byte
buffers as lists of naturals.
-/

set_option maxHeartbeats 1000000

namespace KVStore

/-- A key component of the bytewise tuple codec: `null`, a boolean, a
number, a raw byte string, a string, a nested structured key, or the
`undefined` maximum sentinel.  A structured key is a `List KComp`. -/
inductive KComp : Type where
  | null : KComp
  | bool : Bool → KComp
  | num : ℚ → KComp
  | bytes : List ℕ → KComp
  | str : List ℕ → KComp
  | sub : List KComp → KComp
  | undef : KComp

/-- JavaScript string comparison: lexicographic on UTF-16 code units,
with a proper prefix sorting first. -/
def strLt : List ℕ → List ℕ → Bool
  | _, [] => false
  | [], _ :: _ => true
  | a :: as, b :: bs => if a < b then true else if b < a then false else strLt as bs

/-- Cross-kind rank of a component in bytewise encoded order:
`null < booleans < numbers < buffers < strings < arrays < undefined`
(bytewise type tags 0x10, 0x20/0x21, 0x4x, 0x60, 0x70, 0xA0, 0xF0). -/
def rank : KComp → ℕ
  | .null => 0
  | .bool _ => 1
  | .num _ => 2
  | .bytes _ => 3
  | .str _ => 4
  | .sub _ => 5
  | .undef => 6

mutual

/-- Modelled from the spec: the total encoded order on key components
(the external bytewise codec is order-preserving, so the logical
component order below *is* the encoded order).  Kinds are ordered by
`rank`; within a kind: `false < true`, numbers numerically, buffers
and strings lexicographically, nested keys by `keyLt`. -/
def compLt (a b : KComp) : Bool :=
  if rank a < rank b then true
  else if rank b < rank a then false
  else match a, b with
    | .bool x, .bool y => !x && y
    | .num x, .num y => decide (x < y)
    | .bytes x, .bytes y => strLt x y
    | .str x, .str y => strLt x y
    | .sub x, .sub y => keyLt x y
    | _, _ => false
termination_by sizeOf a + sizeOf b

/-- Modelled from the spec: encoded order on structured keys —
lexicographic on components, a proper prefix sorting first. -/
def keyLt : List KComp → List KComp → Bool
  | _, [] => false
  | [], _ :: _ => true
  | a :: as, b :: bs => if compLt a b then true else if compLt b a then false else keyLt as bs
termination_by x y => sizeOf x + sizeOf y

end

/-- `a ≤ b` in encoded order. -/
def keyLe (a b : List KComp) : Bool := !keyLt b a

/-- Membership of a structured key in the half-open range `[s, e)`. -/
def inRange (s e k : List KComp) : Bool := keyLe s k && keyLt k e

/-- `_getPreviousKey` (src/index.js lines 70-83): on a number, subtract
the fixed epsilon `0.000001`; on a non-empty string, drop the final
code unit, decrement it (JavaScript `String.fromCharCode` reduces its
argument modulo 2^16, so `-1` wraps to `0xFFFF`), and append the
maximal sentinel code unit `0xFFFF`; anything else (including the
empty string) is returned unchanged. -/
def _getPreviousKey : KComp → KComp
  | .num q => .num (q - 1 / 1000000)
  | .str s =>
    match s.getLast? with
    | none => .str s
    | some c => .str (s.dropLast ++ [(c + 65535) % 65536, 65535])
  | c => c

/-- `_getNextKey` (src/index.js lines 95-107): on a number, add the
fixed epsilon; on a non-empty string, append the low sentinel code
unit `0x0001`; anything else unchanged. -/
def _getNextKey : KComp → KComp
  | .num q => .num (q + 1 / 1000000)
  | .str s =>
    match s with
    | [] => .str []
    | _ => .str (s ++ [1])
  | c => c

/-- The `clone / pop / transform / push` pattern of `getPreviousKey` and
`getNextKey`: replace the last element of the list by its image under
`f`, leaving the empty list unchanged. -/
def perturbLast (f : KComp → KComp) : List KComp → List KComp
  | [] => []
  | [c] => [f c]
  | c :: rest => c :: perturbLast f rest

/-- `getPreviousKey` (src/index.js lines 60-68, bytewise scheme). -/
def getPreviousKey : List KComp → List KComp := perturbLast _getPreviousKey

/-- `getNextKey` (src/index.js lines 85-93, bytewise scheme). -/
def getNextKey : List KComp → List KComp := perturbLast _getNextKey

/-- `getEmptyKey` (src/index.js lines 109-112). -/
def getEmptyKey : List KComp := []

/-- `getMinimumKey` (src/index.js lines 114-117). -/
def getMinimumKey : List KComp := [KComp.null]

/-- `getMaximumKey` (src/index.js lines 119-122). -/
def getMaximumKey : List KComp := [KComp.undef]

/-- A raw key input supplied in a selector config: either a bare
non-array scalar or an already-structured key (an array). -/
inductive KeyInput : Type where
  | scalar : KComp → KeyInput
  | arr : List KComp → KeyInput

/-- `normalizeKey` (src/index.js lines 124-128): wrap a non-array value
in a one-element structured key, pass arrays through. -/
def normalizeKey : KeyInput → List KComp
  | .scalar c => [c]
  | .arr k => k

/-- `concatKeys` (src/index.js lines 130-133). -/
def concatKeys (k1 k2 : List KComp) : List KComp := k1 ++ k2

/-- The error taxonomy of the layer (each `throw new Error(msg)` site,
by message): `Unknown encoding`, `Undefined, null or empty key`,
`Unimplemented encoding`, `Invalid key selector`. -/
inductive Err : Type where
  | encodingError : Err
  | invalidKey : Err
  | unimplementedEncoding : Err
  | invalidSelector : Err
deriving DecidableEq

/-- A range selector config.  A field holding `none` models an absent
property (`hasOwnProperty` false); `some` models a present property,
including one explicitly set to a scalar or array key input.  The
`reverse` flag is read only by truthiness in the source, so a plain
`Bool` (absent = `false`) is faithful. -/
structure SelOpts : Type where
  value : Option KeyInput := none
  start : Option KeyInput := none
  startAfter : Option KeyInput := none
  endK : Option KeyInput := none
  endBefore : Option KeyInput := none
  pfx : Option KeyInput := none
  reverse : Bool := false

/-- The object returned by `normalizeKeySelectors`: `start`/`end` have
been resolved to structured keys; `startAfter`, `endBefore`, `prefix`
are deleted (`none`) — but `value` is never deleted by the source and
is returned as supplied. -/
structure SelResult : Type where
  value : Option KeyInput
  start : List KComp
  startAfter : Option KeyInput
  endK : List KComp
  endBefore : Option KeyInput
  pfx : Option KeyInput
  reverse : Bool

/-- `normalizeKeySelectors` (src/index.js lines 135-195), for the
default bytewise key encoding.  The source shallow-clones `options`
and then resolves in place; here each successive assignment to
`options.start` / `options.end` is a fresh `let`.  The four `throw`
sites are modelled in source order (the bound computations between
them are pure and cannot throw under the bytewise scheme). -/
def normalizeKeySelectors (o : SelOpts) : Except Err SelResult :=
  -- lines 138-143: a present `value` conflicts with `start`/`end`,
  -- otherwise it is copied into both bound properties
  if o.value.isSome && o.start.isSome then .error .invalidSelector
  else if o.value.isSome && o.endK.isSome then .error .invalidSelector
  else
    let startP : Option KeyInput := if o.value.isSome then o.value else o.start
    let endP : Option KeyInput := if o.value.isSome then o.value else o.endK
    -- lines 147-150: `start` present conflicts with `startAfter`
    if startP.isSome && o.startAfter.isSome then .error .invalidSelector
    else
      -- lines 151-162: resolve the lower bound
      let s2 : Option (List KComp) :=
        match o.startAfter with
        | some w => some ((if o.reverse then getPreviousKey else getNextKey) (normalizeKey w))
        | none => startP.map normalizeKey
      let s3 : List KComp := s2.getD getEmptyKey
      let s4 : List KComp := if o.reverse then concatKeys s3 getMaximumKey else s3
      -- lines 164-166: `end` present conflicts with `endBefore`
      if endP.isSome && o.endBefore.isSome then .error .invalidSelector
      else
        -- lines 168-179: resolve the upper bound
        let e2 : Option (List KComp) :=
          match o.endBefore with
          | some w => some ((if o.reverse then getNextKey else getPreviousKey) (normalizeKey w))
          | none => endP.map normalizeKey
        let e3 : List KComp := e2.getD getEmptyKey
        let e4 : List KComp := if !o.reverse then concatKeys e3 getMaximumKey else e3
        -- lines 181-186: scope both bounds under the prefix
        let s5 : List KComp := match o.pfx with
          | some p => concatKeys (normalizeKey p) s4
          | none => s4
        let e5 : List KComp := match o.pfx with
          | some p => concatKeys (normalizeKey p) e4
          | none => e4
        -- lines 188-192: under reverse, swap the bounds
        .ok { value := o.value
              start := if o.reverse then e5 else s5
              startAfter := none
              endK := if o.reverse then s5 else e5
              endBefore := none
              pfx := none
              reverse := o.reverse }

/-- Whether a component list does not begin with the `undefined`
maximum sentinel — the exact condition under which a suffix keeps a
prefixed key below the `prefix ++ [undefined]` upper bound. -/
def headNotUndef : List KComp → Bool
  | .undef :: _ => false
  | _ => true

/-- The exact conflict condition of `normalizeKeySelectors`, in the
claim's vocabulary of mutually exclusive field pairs: the four pairs
named by the spec, plus `value` with `startAfter` and `value` with
`endBefore` (the source copies `value` into the `start`/`end`
properties before running the `start`/`startAfter` and
`end`/`endBefore` conflict checks, so those pairs are rejected too). -/
def mutuallyExclusiveFields (o : SelOpts) : Bool :=
  (o.value.isSome && (o.start.isSome || o.endK.isSome || o.startAfter.isSome || o.endBefore.isSome))
    || (o.start.isSome && o.startAfter.isSome)
    || (o.endK.isSome && o.endBefore.isSome)

/-! ### The external codecs, modelled from the spec

The byte-level codecs are external collaborators (`bytewise` and
`JSON.stringify`/`JSON.parse`); the spec specifies them only at their
interface: `decode` is the exact inverse of `encode` for every
representable input.  They are modelled here as an executable
serialization of tagged trees with an explicit parser, so that the
round-trip law is a real theorem about running code rather than an
assumption. -/

/-- A serialization tree: a numeric tag, a list of scalar data, and a
list of children. -/
inductive RTree : Type where
  | node : ℕ → List ℕ → List RTree → RTree

mutual

/-- Serialize a tree: tag, data length, data, child count, children. -/
def encTree : RTree → List ℕ
  | .node t d ks => t :: d.length :: (d ++ ks.length :: encTrees ks)

/-- Serialize a list of trees by juxtaposition. -/
def encTrees : List RTree → List ℕ
  | [] => []
  | k :: ks => encTree k ++ encTrees ks

end

mutual

/-- Parse one tree from a token stream; `fuel` bounds the nesting
depth (any fuel larger than the encoded tree's depth suffices). -/
def decTree : ℕ → List ℕ → Option (RTree × List ℕ)
  | 0, _ => none
  | _ + 1, [] => none
  | _ + 1, [_] => none
  | fuel + 1, t :: dl :: rest =>
    match rest.drop dl with
    | [] => none
    | n :: rest2 =>
      match decTrees fuel n rest2 with
      | some (ks, rest3) => some (.node t (rest.take dl) ks, rest3)
      | none => none
termination_by fuel _ => (fuel, 0)

/-- Parse exactly `n` trees from a token stream. -/
def decTrees : ℕ → ℕ → List ℕ → Option (List RTree × List ℕ)
  | _, 0, bs => some ([], bs)
  | fuel, n + 1, bs =>
    match decTree fuel bs with
    | some (k, rest) =>
      match decTrees fuel n rest with
      | some (ks, rest2) => some (k :: ks, rest2)
      | none => none
    | none => none
termination_by fuel n _ => (fuel, n + 1)

end

mutual

/-- Nesting depth of a tree. -/
def depth : RTree → ℕ
  | .node _ _ ks => depthL ks + 1

/-- Maximal nesting depth of a list of trees. -/
def depthL : List RTree → ℕ
  | [] => 0
  | k :: ks => max (depth k) (depthL ks)

end

/-- Serialize a rational: sign, numerator magnitude, denominator. -/
def encRat (q : ℚ) : List ℕ := [if q.num < 0 then 1 else 0, q.num.natAbs, q.den]

/-- Parse a rational back from its three tokens. -/
def decRat : List ℕ → Option ℚ
  | [s, n, d] => some ((if s = 1 then -(n : ℚ) else (n : ℚ)) / (d : ℚ))
  | _ => none

mutual

/-- The bytewise scheme: render a key component as a tagged tree. -/
def compToTree : KComp → RTree
  | .null => .node 0 [] []
  | .bool b => .node 1 [b.toNat] []
  | .num q => .node 2 (encRat q) []
  | .bytes s => .node 3 s []
  | .str s => .node 4 s []
  | .sub k => .node 5 [] (keyToTrees k)
  | .undef => .node 6 [] []

/-- Render the components of a structured key as trees. -/
def keyToTrees : List KComp → List RTree
  | [] => []
  | c :: k => compToTree c :: keyToTrees k

end

mutual

/-- The bytewise scheme: read a key component back from a tree. -/
def treeToComp : RTree → Option KComp
  | .node 0 [] [] => some .null
  | .node 1 [b] [] => some (.bool (b == 1))
  | .node 2 d [] => (decRat d).map KComp.num
  | .node 3 s [] => some (.bytes s)
  | .node 4 s [] => some (.str s)
  | .node 5 [] ks => (treesToKey ks).map KComp.sub
  | .node 6 [] [] => some .undef
  | _ => none

/-- Read a component list back from a list of trees. -/
def treesToKey : List RTree → Option (List KComp)
  | [] => some []
  | t :: ts =>
    match treeToComp t, treesToKey ts with
    | some c, some k => some (c :: k)
    | _, _ => none

end

/-- Modelled from the spec: `bytewise.encode` on a structured key (the
external order-preserving tuple codec, whose internal byte layout is
out of scope; the spec requires only that decoding invert it). -/
def bytewiseEncode (k : List KComp) : List ℕ := encTree (compToTree (.sub k))

/-- Modelled from the spec: `bytewise.decode` restricted to the
structured keys the layer stores. -/
def bytewiseDecode (bs : List ℕ) : Option (List KComp) :=
  match decTree (bs.length + 1) bs with
  | some (t, []) =>
    match treeToComp t with
    | some (.sub k) => some k
    | _ => none
  | _ => none

/-- A JSON value: the representable opaque values of the `json` value
encoding (nested `undefined` is not representable by `JSON.stringify`). -/
inductive JVal : Type where
  | null : JVal
  | bool : Bool → JVal
  | num : ℚ → JVal
  | str : List ℕ → JVal
  | arr : List JVal → JVal
  | obj : List (List ℕ × JVal) → JVal

mutual

/-- The json scheme: render a value as a tagged tree. -/
def jvalToTree : JVal → RTree
  | .null => .node 0 [] []
  | .bool b => .node 1 [b.toNat] []
  | .num q => .node 2 (encRat q) []
  | .str s => .node 4 s []
  | .arr vs => .node 7 [] (jvalsToTrees vs)
  | .obj fs => .node 8 [] (fieldsToTrees fs)

/-- Render a list of values as trees. -/
def jvalsToTrees : List JVal → List RTree
  | [] => []
  | v :: vs => jvalToTree v :: jvalsToTrees vs

/-- Render the fields of an object as `(name, value)` trees. -/
def fieldsToTrees : List (List ℕ × JVal) → List RTree
  | [] => []
  | (n, v) :: fs => .node 9 n [jvalToTree v] :: fieldsToTrees fs

end

mutual

/-- The json scheme: read a value back from a tree. -/
def treeToJval : RTree → Option JVal
  | .node 0 [] [] => some .null
  | .node 1 [b] [] => some (.bool (b == 1))
  | .node 2 d [] => (decRat d).map JVal.num
  | .node 4 s [] => some (.str s)
  | .node 7 [] ks => (treesToJvals ks).map JVal.arr
  | .node 8 [] ks => (treesToFields ks).map JVal.obj
  | _ => none

/-- Read a list of values back from trees. -/
def treesToJvals : List RTree → Option (List JVal)
  | [] => some []
  | t :: ts =>
    match treeToJval t, treesToJvals ts with
    | some v, some vs => some (v :: vs)
    | _, _ => none

/-- Read object fields back from trees. -/
def treesToFields : List RTree → Option (List (List ℕ × JVal))
  | [] => some []
  | .node 9 n [t] :: ts =>
    match treeToJval t, treesToFields ts with
    | some v, some fs => some ((n, v) :: fs)
    | _, _ => none
  | _ => none

end

/-- Modelled from the spec: `JSON.stringify` (external builtin,
specified only by the round-trip law). -/
def jsonStringify (v : JVal) : List ℕ := encTree (jvalToTree v)

/-- Modelled from the spec: `JSON.parse`, the inverse of
`jsonStringify`; `none` models a `SyntaxError` on unparseable bytes. -/
def jsonParse (bs : List ℕ) : Option JVal :=
  match decTree (bs.length + 1) bs with
  | some (t, []) => treeToJval t
  | _ => none

/-- An arbitrary JavaScript value supplied as a record key: the
kinds the bytewise codec accepts, plus byte buffers. -/
inductive JSVal : Type where
  | undef : JSVal
  | null : JSVal
  | bool : Bool → JSVal
  | num : ℚ → JSVal
  | str : List ℕ → JSVal
  | arr : List KComp → JSVal
  | buf : List ℕ → JSVal

/-- JavaScript falsiness of a key value — the exact condition of the
`if (!key)` guards in `encodeKey`/`decodeKey`: `undefined`, `null`,
`false`, `0` and the empty string are falsy (so is `NaN`, which the
rational number model cannot express); arrays and buffers are objects
and always truthy, including the empty array and the empty buffer. -/
def jsFalsy : JSVal → Bool
  | .undef => true
  | .null => true
  | .bool b => !b
  | .num q => decide (q = 0)
  | .str s => s.isEmpty
  | .arr _ => false
  | .buf _ => false

/-- View a non-falsy key value as a bytewise component. -/
def jsvalToComp : JSVal → KComp
  | .undef => .undef
  | .null => .null
  | .bool b => .bool b
  | .num q => .num q
  | .str s => .str s
  | .arr k => .sub k
  | .buf bs => .bytes bs

/-- `encodeKey` (src/index.js lines 29-32): throw
`Undefined, null or empty key` when the key is falsy, else
bytewise-encode it. -/
def encodeKey (key : JSVal) : Except Err (List ℕ) :=
  if jsFalsy key then .error .invalidKey
  else .ok (encTree (compToTree (jsvalToComp key)))

/-- `decodeKey` (src/index.js lines 50-53): the same falsiness guard,
then bytewise-decode (the external decoder is only defined on
buffers; other truthy inputs are modelled as decoding to nothing). -/
def decodeKey (key : JSVal) : Except Err (Option (List KComp)) :=
  if jsFalsy key then .error .invalidKey
  else .ok (match key with
    | .buf bs => bytewiseDecode bs
    | _ => none)

/-- A JavaScript value stored through the value encoding: a JSON
value or `undefined`. -/
inductive JSValue : Type where
  | undef : JSValue
  | jv : JVal → JSValue

/-- `encodeValue` (src/index.js lines 34-37): `value == null` (loose,
so both `null` and `undefined`) encodes as the absence of a value;
anything else is JSON-stringified. -/
def encodeValue : JSValue → Option (List ℕ)
  | .undef => none
  | .jv .null => none
  | .jv w => some (jsonStringify w)

/-- `decodeValue` (src/index.js lines 55-58): absent bytes decode to
`undefined`; otherwise JSON-parse (`none` models a parse error). -/
def decodeValue : Option (List ℕ) → Option JSValue
  | none => some .undef
  | some bs => (jsonParse bs).map JSValue.jv

/-- JavaScript loose equality `==` on stored values, as the round-trip
law states it: `undefined == null`, and structural equality otherwise
(the claim's `==` on compound values can only mean structural
equality — reference identity is meaningless for a decoded copy). -/
def looseEq : JSValue → JSValue → Prop
  | .undef, .undef => True
  | .undef, .jv .null => True
  | .jv .null, .undef => True
  | a, b => a = b

/-! ### Helper lemmas -/

theorem strLt_append_one (x : ℕ) : ∀ s : List ℕ, strLt s (s ++ [x]) = true
  | [] => rfl
  | u :: us => by simp [strLt, strLt_append_one x us]

theorem strLt_append_lt {a b : ℕ} (h : a < b) :
    ∀ (p x y : List ℕ), strLt (p ++ a :: x) (p ++ b :: y) = true
  | [], x, y => by simp [strLt, h]
  | u :: p, x, y => by simp [strLt, strLt_append_lt h p x y]

theorem strLt_total : ∀ s t : List ℕ, strLt s t = false → strLt t s = false → s = t
  | [], [], _, _ => rfl
  | [], _ :: _, h, _ => by simp [strLt] at h
  | _ :: _, [], _, h => by simp [strLt] at h
  | a :: as, b :: bs, h1, h2 => by
    simp only [strLt] at h1 h2
    have hab : a = b := by
      by_cases hlt : a < b
      · simp [hlt] at h1
      · by_cases hgt : b < a
        · simp [hgt] at h2
        · omega
    subst hab
    have hrec := strLt_total as bs (by simpa using h1) (by simpa using h2)
    rw [hrec]

theorem strLt_head_mono {a b : ℕ} (h : a < b) :
    ∀ (s t : List ℕ), strLt s (a :: t) = true → strLt s [b] = true
  | [], _, _ => rfl
  | u :: us, t, hs => by
    simp only [strLt] at hs ⊢
    by_cases h1 : u < a
    · have hub : u < b := by omega
      simp [hub]
    · by_cases h2 : a < u
      · simp [h1, h2] at hs
      · have hua : u = a := by omega
        subst hua
        simp [h]

theorem keyLt_nil_right : ∀ k : List KComp, keyLt k [] = false
  | [] => by simp [keyLt]
  | _ :: _ => by simp [keyLt]

theorem keyLt_rest_undef : ∀ rest : List KComp, keyLt rest [KComp.undef] = headNotUndef rest
  | [] => by simp [keyLt, headNotUndef]
  | c :: cs => by
    cases c <;> simp [keyLt, compLt, rank, headNotUndef, keyLt_nil_right]

theorem perturbLast_append (f : KComp → KComp) :
    ∀ (l : List KComp) (c : KComp), perturbLast f (l ++ [c]) = l ++ [f c]
  | [], _ => rfl
  | a :: l, c => by
    cases l with
    | nil => rfl
    | cons b t =>
      have ih := perturbLast_append f (b :: t) c
      show a :: perturbLast f (b :: t ++ [c]) = a :: (b :: t ++ [f c])
      rw [ih]

/-! ### Claim theorems -/

/-- C7: `getPreviousKey` and `getNextKey` map the empty key to itself
and perturb only the last component of a non-empty key, leaving all
preceding components unchanged. -/
theorem adjacency_perturbs_only_last :
    getPreviousKey [] = [] ∧ getNextKey [] = [] ∧
    ∀ (l : List KComp) (c : KComp),
      getPreviousKey (l ++ [c]) = l ++ [_getPreviousKey c] ∧
      getNextKey (l ++ [c]) = l ++ [_getNextKey c] :=
  ⟨rfl, rfl, fun l c => ⟨perturbLast_append _ l c, perturbLast_append _ l c⟩⟩

/-- C1: normalizing `{startAfter: ['m'], reverse: true}` yields the
range `[[], ["l\uFFFF", undefined])`, and every structured key at or
after `['m']` in encoded order lies outside that half-open range. -/
theorem reverse_startAfter_excludes_tail :
    normalizeKeySelectors { startAfter := some (.arr [.str [109]]), reverse := true } =
      .ok { value := none, start := [], startAfter := none,
            endK := [.str [108, 65535], .undef], endBefore := none, pfx := none, reverse := true } ∧
    ∀ k : List KComp, keyLe [KComp.str [109]] k = true →
      inRange [] [KComp.str [108, 65535], KComp.undef] k = false := by
  refine ⟨rfl, ?_⟩
  intro k hk
  simp only [keyLe, Bool.not_eq_true'] at hk
  simp only [inRange, keyLe, keyLt_nil_right, Bool.not_false, Bool.true_and]
  by_contra hcon
  rw [Bool.not_eq_false] at hcon
  cases k with
  | nil => simp [keyLt] at hk
  | cons c cs =>
    cases c with
    | null => simp [keyLt, compLt, rank] at hk
    | bool b => simp [keyLt, compLt, rank] at hk
    | num q => simp [keyLt, compLt, rank] at hk
    | bytes s => simp [keyLt, compLt, rank] at hk
    | undef => simp [keyLt, compLt, rank] at hcon
    | sub x => simp [keyLt, compLt, rank] at hcon
    | str s =>
      by_cases hst : strLt s [108, 65535] = true
      · have hs109 : strLt s [109] = true := strLt_head_mono (by omega) s [65535] hst
        simp [keyLt, compLt, rank, hs109] at hk
      · by_cases hts : strLt [108, 65535] s = true
        · simp [keyLt, compLt, rank, hst, hts] at hcon
        · have hseq : s = [108, 65535] :=
            strLt_total s [108, 65535] (by simpa using hst) (by simpa using hts)
          subst hseq
          simp [keyLt, compLt, rank, strLt] at hk

/-- Witness for C1 at the concrete key `['m']` itself. -/
theorem reverse_startAfter_excludes_tail_witness :
    inRange [] [KComp.str [108, 65535], KComp.undef] [KComp.str [109]] = false :=
  reverse_startAfter_excludes_tail.2 [KComp.str [109]]
    (by simp [keyLe, keyLt, compLt, rank, strLt, keyLt_nil_right])

/-- C2 (counterexample): the claim quantifies over every structured
key of the form `['a', ...anything]`, but the key
`['a', undefined]` — whose suffix is the maximum sentinel component —
does not lie in the normalized range `[['a'], ['a', undefined])`. -/
theorem prefix_range_sentinel_escapes :
    normalizeKeySelectors { pfx := some (.arr [.str [97]]) } =
      .ok { value := none, start := [.str [97]], startAfter := none,
            endK := [.str [97], .undef], endBefore := none, pfx := none, reverse := false } ∧
    inRange [KComp.str [97]] [KComp.str [97], KComp.undef] [KComp.str [97], KComp.undef] = false := by
  refine ⟨rfl, ?_⟩
  simp [inRange, keyLe, keyLt, compLt, rank, strLt, keyLt_nil_right]

/-- C2 (amended): `{prefix: ['a']}` normalizes to
`start = ['a'], end = ['a', undefined]`; a key `['a', ...rest]` lies in
`[start, end)` exactly when `rest` does not begin with the
`undefined` maximum sentinel, and no key `['b', ...]` lies in it. -/
theorem prefix_range_characterization :
    normalizeKeySelectors { pfx := some (.arr [.str [97]]) } =
      .ok { value := none, start := [.str [97]], startAfter := none,
            endK := [.str [97], .undef], endBefore := none, pfx := none, reverse := false } ∧
    (∀ rest : List KComp,
      inRange [KComp.str [97]] [KComp.str [97], KComp.undef] (KComp.str [97] :: rest) =
        headNotUndef rest) ∧
    (∀ rest : List KComp,
      inRange [KComp.str [97]] [KComp.str [97], KComp.undef] (KComp.str [98] :: rest) = false) := by
  refine ⟨rfl, ?_, ?_⟩
  · intro rest
    simp [inRange, keyLe, keyLt, compLt, rank, strLt, keyLt_nil_right, keyLt_rest_undef]
  · intro rest
    simp [inRange, keyLe, keyLt, compLt, rank, strLt]

/-- C5 (counterexample): `{value: 5, startAfter: 1}` supplies none of
the four mutually exclusive pairs named by the claim (`start`, `end`
and `endBefore` are all absent), yet `normalizeKeySelectors` rejects
it with `Invalid key selector`. -/
theorem value_with_startAfter_rejected :
    (({ value := some (.scalar (.num 5)), startAfter := some (.scalar (.num 1)) } : SelOpts).start.isSome
        = false) ∧
    (({ value := some (.scalar (.num 5)), startAfter := some (.scalar (.num 1)) } : SelOpts).endK.isSome
        = false) ∧
    (({ value := some (.scalar (.num 5)), startAfter := some (.scalar (.num 1)) } : SelOpts).endBefore.isSome
        = false) ∧
    normalizeKeySelectors { value := some (.scalar (.num 5)), startAfter := some (.scalar (.num 1)) } =
      .error .invalidSelector :=
  ⟨rfl, rfl, rfl, rfl⟩

/-- C5 (amended): `normalizeKeySelectors` fails with
`InvalidSelectorError` exactly on the mutually exclusive field pairs:
`value` with any of `start`/`end`/`startAfter`/`endBefore`, `start`
with `startAfter`, or `end` with `endBefore`. -/
theorem invalidSelector_iff_mutually_exclusive (o : SelOpts) :
    normalizeKeySelectors o = .error .invalidSelector ↔ mutuallyExclusiveFields o = true := by
  obtain ⟨v, s, sa, e, eb, p, r⟩ := o
  cases v <;> cases s <;> cases sa <;> cases e <;> cases eb <;>
    simp [normalizeKeySelectors, mutuallyExclusiveFields]

/-- C6 (counterexample): the `value` field is never deleted by the
source, so the result of normalizing `{value: 5}` still carries it. -/
theorem value_field_retained :
    (normalizeKeySelectors { value := some (.scalar (.num 5)) }).map (fun r => r.value) =
      .ok (some (.scalar (.num 5))) := by
  rfl

/-- C6 (amended): every successful normalization removes `startAfter`,
`endBefore` and `prefix` from the result and preserves `reverse` — but
the `value` field is returned exactly as supplied, not removed. -/
theorem normalize_consumes_open_bounds_and_prefix (o : SelOpts) (r : SelResult)
    (h : normalizeKeySelectors o = .ok r) :
    r.startAfter = none ∧ r.endBefore = none ∧ r.pfx = none ∧
    r.value = o.value ∧ r.reverse = o.reverse := by
  obtain ⟨v, s, sa, e, eb, p, rv⟩ := o
  cases v <;> cases s <;> cases sa <;> cases e <;> cases eb <;>
    simp [normalizeKeySelectors] at h <;> subst h <;> exact ⟨rfl, rfl, rfl, rfl, rfl⟩

/-- Witness for C6 (amended) at the empty config. -/
theorem normalize_consumes_open_bounds_and_prefix_witness :
    (({ value := none, start := [], startAfter := none, endK := [KComp.undef],
        endBefore := none, pfx := none, reverse := false } : SelResult).startAfter = none) ∧
    (({ value := none, start := [], startAfter := none, endK := [KComp.undef],
        endBefore := none, pfx := none, reverse := false } : SelResult).endBefore = none) ∧
    (({ value := none, start := [], startAfter := none, endK := [KComp.undef],
        endBefore := none, pfx := none, reverse := false } : SelResult).pfx = none) ∧
    (({ value := none, start := [], startAfter := none, endK := [KComp.undef],
        endBefore := none, pfx := none, reverse := false } : SelResult).value = ({} : SelOpts).value) ∧
    (({ value := none, start := [], startAfter := none, endK := [KComp.undef],
        endBefore := none, pfx := none, reverse := false } : SelResult).reverse = ({} : SelOpts).reverse) :=
  normalize_consumes_open_bounds_and_prefix {}
    { value := none, start := [], startAfter := none, endK := [KComp.undef],
      endBefore := none, pfx := none, reverse := false } rfl

/-- C3: normalizing the empty config (forward) yields `start = []`
(the empty structured key) and `end = [undefined]` (the
maximum-sentinel singleton) — the full range. -/
theorem normalize_empty_config_full_range :
    normalizeKeySelectors {} =
      .ok { value := none, start := [], startAfter := none,
            endK := [KComp.undef], endBefore := none, pfx := none, reverse := false } := by
  rfl

theorem getLast?_decomp : ∀ (s : List ℕ) (c : ℕ), s.getLast? = some c → s = s.dropLast ++ [c]
  | [], c, h => by simp at h
  | [a], c, h => by
    simp at h
    simp [h]
  | a :: b :: t, c, h => by
    have ih := getLast?_decomp (b :: t) c (by simpa using h)
    simpa using congrArg (a :: ·) ih

/-- C4 (counterexample): on the one-character string `"\u0000"` the
truncate-and-decrement step computes `String.fromCharCode(-1)`, which
wraps to `0xFFFF`, so `_getPreviousKey` returns `"￿￿"` — a
string strictly *greater* than the input, falsifying
`_getPreviousKey(s) < s` for that non-empty string. -/
theorem previousKey_wraps_at_zero :
    _getPreviousKey (KComp.str [0]) = KComp.str [65535, 65535] ∧
    strLt [65535, 65535] [0] = false ∧
    strLt [0] [65535, 65535] = true :=
  ⟨rfl, rfl, rfl⟩

/-- C4 (amended): for every non-empty JavaScript string (UTF-16 code
units below 2^16) whose final code unit is nonzero, the adjacency
computations bracket it strictly:
`_getPreviousKey(s) < s < _getNextKey(s)` in lexicographic code-unit
order.  (When the final code unit is `0`, `fromCharCode(-1)` wraps to
`0xFFFF` and the lower bracket fails.) -/
theorem string_adjacency_brackets (s : List ℕ) (c : ℕ) (hlast : s.getLast? = some c)
    (h0 : 0 < c) (hc : c < 65536) :
    _getPreviousKey (KComp.str s) = KComp.str (s.dropLast ++ [c - 1, 65535]) ∧
    strLt (s.dropLast ++ [c - 1, 65535]) s = true ∧
    _getNextKey (KComp.str s) = KComp.str (s ++ [1]) ∧
    strLt s (s ++ [1]) = true := by
  have hdec := getLast?_decomp s c hlast
  have hmod : (c + 65535) % 65536 = c - 1 := by omega
  refine ⟨?_, ?_, ?_, strLt_append_one 1 s⟩
  · simp [_getPreviousKey, hlast, hmod]
  · have h2 := strLt_append_lt (show c - 1 < c by omega) s.dropLast [65535] []
    rwa [← hdec] at h2
  · cases s with
    | nil => simp at hlast
    | cons a t => simp [_getNextKey]

/-- Witness for C4 (amended) at the string `"m"`. -/
theorem string_adjacency_brackets_witness :
    _getPreviousKey (KComp.str [109]) = KComp.str [108, 65535] ∧
    strLt [108, 65535] [109] = true ∧
    _getNextKey (KComp.str [109]) = KComp.str [109, 1] ∧
    strLt [109] [109, 1] = true := by
  have h := string_adjacency_brackets [109] 109 (by simp) (by omega) (by omega)
  simpa using h

/-- C9 (counterexample): `0` is a present, non-empty (and perfectly
bytewise-encodable) record key, yet both `encodeKey` and `decodeKey`
throw `Undefined, null or empty key` on it, because the `if (!key)`
guard tests JavaScript falsiness and `0` is falsy. -/
theorem encodeKey_rejects_zero :
    encodeKey (JSVal.num 0) = .error .invalidKey ∧
    decodeKey (JSVal.num 0) = .error .invalidKey :=
  ⟨rfl, rfl⟩

/-- C9 (amended): `encodeKey` and `decodeKey` fail with
`InvalidKeyError` exactly when the supplied key is JavaScript-falsy —
`undefined`, `null`, `false`, `0`, or the empty string.  In
particular they also reject the valid keys `0` and `false`, and they
accept the empty array and the empty buffer (objects are truthy). -/
theorem invalidKey_iff_falsy (k : JSVal) :
    (encodeKey k = .error .invalidKey ↔ jsFalsy k = true) ∧
    (decodeKey k = .error .invalidKey ↔ jsFalsy k = true) := by
  by_cases hf : jsFalsy k = true <;> simp [encodeKey, decodeKey, hf]

theorem decRat_encRat (q : ℚ) : decRat (encRat q) = some q := by
  simp only [encRat, decRat]
  by_cases h : q.num < 0
  · rw [if_pos h, if_pos rfl, Int.cast_natAbs, abs_of_neg h]
    push_cast
    simp [Rat.num_div_den]
  · rw [if_neg h, if_neg (by omega), Int.cast_natAbs, abs_of_nonneg (not_lt.mp h)]
    exact congrArg some (Rat.num_div_den q)

mutual

theorem decTree_encTree :
    ∀ (fuel : ℕ) (t : RTree) (rest : List ℕ), depth t < fuel →
      decTree fuel (encTree t ++ rest) = some (t, rest)
  | fuel + 1, .node tg d ks, rest, h => by
    have hd : depthL ks < fuel := by
      have hdep : depth (RTree.node tg d ks) = depthL ks + 1 := rfl
      omega
    have ih := decTrees_encTrees fuel ks rest hd
    simp only [encTree, List.cons_append, List.append_assoc]
    rw [decTree]
    rw [List.drop_left' rfl, List.take_left' rfl]
    simp [ih]
termination_by fuel _ _ _ => (fuel, 0)

theorem decTrees_encTrees :
    ∀ (fuel : ℕ) (ts : List RTree) (rest : List ℕ), depthL ts < fuel →
      decTrees fuel ts.length (encTrees ts ++ rest) = some (ts, rest)
  | _, [], rest, _ => by simp [encTrees, decTrees]
  | fuel, t :: ts, rest, h => by
    have hmax : depthL (t :: ts) = max (depth t) (depthL ts) := rfl
    have h1 : depth t < fuel := by omega
    have h2 : depthL ts < fuel := by omega
    have iht := decTree_encTree fuel t (encTrees ts ++ rest) h1
    have ihts := decTrees_encTrees fuel ts rest h2
    simp only [encTrees, List.append_assoc, List.length_cons]
    rw [decTrees]
    simp [iht, ihts]
termination_by fuel ts _ _ => (fuel, ts.length + 1)

end

mutual

theorem depth_le_encTree_length : ∀ t : RTree, depth t ≤ (encTree t).length
  | .node tg d ks => by
    have ih := depthL_le_encTrees_length ks
    simp only [depth, encTree, List.length_cons, List.length_append]
    omega

theorem depthL_le_encTrees_length : ∀ ts : List RTree, depthL ts ≤ (encTrees ts).length
  | [] => by simp [depthL, encTrees]
  | t :: ts => by
    have iht := depth_le_encTree_length t
    have ihts := depthL_le_encTrees_length ts
    simp only [depthL, encTrees, List.length_append]
    exact max_le (by omega) (by omega)

end

mutual

theorem treeToComp_compToTree : ∀ c : KComp, treeToComp (compToTree c) = some c
  | .null => by simp [compToTree, treeToComp]
  | .bool b => by cases b <;> simp [compToTree, treeToComp]
  | .num q => by simp [compToTree, treeToComp, decRat_encRat]
  | .bytes s => by simp [compToTree, treeToComp]
  | .str s => by simp [compToTree, treeToComp]
  | .sub k => by simp [compToTree, treeToComp, treesToKey_keyToTrees k]
  | .undef => by simp [compToTree, treeToComp]

theorem treesToKey_keyToTrees : ∀ k : List KComp, treesToKey (keyToTrees k) = some k
  | [] => by simp [keyToTrees, treesToKey]
  | c :: k => by
    simp [keyToTrees, treesToKey, treeToComp_compToTree c, treesToKey_keyToTrees k]

end

mutual

theorem treeToJval_jvalToTree : ∀ v : JVal, treeToJval (jvalToTree v) = some v
  | .null => by simp [jvalToTree, treeToJval]
  | .bool b => by cases b <;> simp [jvalToTree, treeToJval]
  | .num q => by simp [jvalToTree, treeToJval, decRat_encRat]
  | .str s => by simp [jvalToTree, treeToJval]
  | .arr vs => by simp [jvalToTree, treeToJval, treesToJvals_jvalsToTrees vs]
  | .obj fs => by simp [jvalToTree, treeToJval, treesToFields_fieldsToTrees fs]

theorem treesToJvals_jvalsToTrees : ∀ vs : List JVal, treesToJvals (jvalsToTrees vs) = some vs
  | [] => by simp [jvalsToTrees, treesToJvals]
  | v :: vs => by
    simp [jvalsToTrees, treesToJvals, treeToJval_jvalToTree v, treesToJvals_jvalsToTrees vs]

theorem treesToFields_fieldsToTrees :
    ∀ fs : List (List ℕ × JVal), treesToFields (fieldsToTrees fs) = some fs
  | [] => by simp [fieldsToTrees, treesToFields]
  | (n, v) :: fs => by
    simp [fieldsToTrees, treesToFields, treeToJval_jvalToTree v, treesToFields_fieldsToTrees fs]

end

theorem decTree_exact (t : RTree) :
    decTree ((encTree t).length + 1) (encTree t) = some (t, []) := by
  have hd : depth t < (encTree t).length + 1 := by
    have hle := depth_le_encTree_length t
    omega
  have h := decTree_encTree ((encTree t).length + 1) t [] hd
  simpa using h

theorem bytewiseDecode_bytewiseEncode (k : List KComp) :
    bytewiseDecode (bytewiseEncode k) = some k := by
  unfold bytewiseEncode bytewiseDecode
  rw [decTree_exact]
  simp [treeToComp_compToTree]

theorem jsonParse_jsonStringify (v : JVal) : jsonParse (jsonStringify v) = some v := by
  unfold jsonStringify jsonParse
  rw [decTree_exact]
  exact treeToJval_jvalToTree v

/-- C10: decoding inverts encoding — exactly, for every structured key
under the bytewise key-encoding scheme, and up to JavaScript loose
equality `==` (which identifies `undefined` with `null`) for every
representable opaque value under the json value-encoding scheme:
`decodeValue(encodeValue(v)) == v`, with `null` coming back as the
encoded absence of a value, i.e. `undefined`. -/
theorem codec_round_trip :
    (∀ k : List KComp, bytewiseDecode (bytewiseEncode k) = some k) ∧
    (∀ v : JSValue, ∃ w : JSValue, decodeValue (encodeValue v) = some w ∧ looseEq w v) := by
  refine ⟨bytewiseDecode_bytewiseEncode, ?_⟩
  intro v
  cases v with
  | undef => exact ⟨.undef, by simp [encodeValue, decodeValue], by simp [looseEq]⟩
  | jv w =>
    cases w with
    | null => exact ⟨.undef, by simp [encodeValue, decodeValue], by simp [looseEq]⟩
    | bool b =>
      exact ⟨.jv (.bool b), by simp [encodeValue, decodeValue, jsonParse_jsonStringify],
        by simp [looseEq]⟩
    | num q =>
      exact ⟨.jv (.num q), by simp [encodeValue, decodeValue, jsonParse_jsonStringify],
        by simp [looseEq]⟩
    | str s =>
      exact ⟨.jv (.str s), by simp [encodeValue, decodeValue, jsonParse_jsonStringify],
        by simp [looseEq]⟩
    | arr vs =>
      exact ⟨.jv (.arr vs), by simp [encodeValue, decodeValue, jsonParse_jsonStringify],
        by simp [looseEq]⟩
    | obj fs =>
      exact ⟨.jv (.obj fs), by simp [encodeValue, decodeValue, jsonParse_jsonStringify],
        by simp [looseEq]⟩

end KVStore
